import Mathlib

/-!
Verification of the OpenRoboRL actuation/sensing pipeline and
domain-randomization engine, shallowly embedded from the Python sources

  OpenRoboRL/envs/quadruped_robot/robots/minitaur.py
  OpenRoboRL/robots/quadruped.py
  OpenRoboRL/envs/utilities/randomizer/controllable_env_randomizer_from_config.py

Real arithmetic of the program is carried out over the rationals; machine
floats are modelled exactly by the corresponding rational operations.
-/

/-- Truncation toward zero, the behaviour of the Python builtin int() on a
real number. Used by Minitaur._get_delay_obs (n_steps_ago) and by
ControllableEnvRandomizerFromConfig._randomize_control_step. -/
def ratTrunc (q : ℚ) : ℤ :=
  if 0 ≤ q then ⌊q⌋ else ⌈q⌉

/-- Componentwise linear interpolation of two recorded observations:
the numpy expression (1.0 - blend_alpha) * obs[n] + blend_alpha * obs[n + 1]
in Minitaur._get_delay_obs (minitaur.py lines 353-356). -/
def lerpObs (blendAlpha : ℚ) (a b : List ℚ) : List ℚ :=
  List.zipWith (fun x y => (1 - blendAlpha) * x + blendAlpha * y) a b

/-- Minitaur._get_delay_obs (minitaur.py lines 336-357): query the
observation history (newest first, as built by deque.appendleft) at a given
latency. Returns none only for an empty history, where the Python code
would fault on history[0]. -/
def getDelayObs (hist : List (List ℚ)) (timeStep latency : ℚ) : Option (List ℚ) :=
  match hist with
  | [] => none
  | o0 :: rest =>
    if latency ≤ 0 ∨ rest = [] then some o0
    else
      let nStepsAgo : ℕ := (ratTrunc (latency / timeStep)).toNat
      if rest.length ≤ nStepsAgo then some (rest.getLastD o0)
      else
        some (lerpObs ((latency - (nStepsAgo : ℚ) * timeStep) / timeStep)
          ((o0 :: rest).getD nStepsAgo []) ((o0 :: rest).getD (nStepsAgo + 1) []))

theorem lerpObs_zero : ∀ (a b : List ℚ), a.length ≤ b.length → lerpObs 0 a b = a
  | [], _, _ => rfl
  | x :: xs, y :: ys, h => by
    have ih := lerpObs_zero xs ys (by simpa using h)
    simp only [lerpObs, List.zipWith] at ih ⊢
    rw [ih]
    norm_num
  | x :: xs, [], h => by simp at h

theorem ratTrunc_eq_floor (q : ℚ) (h : 0 ≤ q) : ratTrunc q = ⌊q⌋ := if_pos h

/-- Claim C1: for every non-empty observation history, the delayed query with
latency L returns the newest entry verbatim when L is nonpositive or only one
entry exists; otherwise, with n the floor of L / step_duration, the oldest
retained entry when the index n + 1 is beyond the available history; and
otherwise the linear interpolation (1 - blend) * entry[n] + blend * entry[n + 1]
with blend = (L - n * step_duration) / step_duration, so that for L exactly
k * step_duration the result equals entry[k] exactly. -/
theorem delayObs_cases (hist : List (List ℚ)) (ts L : ℚ) (d : ℕ)
    (hne : hist ≠ []) (hts : 0 < ts) (hdim : ∀ o ∈ hist, o.length = d) :
    ((L ≤ 0 ∨ hist.length = 1) → getDelayObs hist ts L = some (hist.headD [])) ∧
    (0 < L → 1 < hist.length → hist.length ≤ (⌊L / ts⌋).toNat + 1 →
        getDelayObs hist ts L = some (hist.getLastD [])) ∧
    (0 < L → (⌊L / ts⌋).toNat + 1 < hist.length →
        getDelayObs hist ts L = some (lerpObs ((L - ((⌊L / ts⌋).toNat : ℚ) * ts) / ts)
          (hist.getD (⌊L / ts⌋).toNat []) (hist.getD ((⌊L / ts⌋).toNat + 1) []))) ∧
    (∀ k : ℕ, L = (k : ℚ) * ts → k + 1 < hist.length →
        getDelayObs hist ts L = some (hist.getD k [])) := by
  obtain ⟨o0, rest, rfl⟩ : ∃ o0 rest, hist = o0 :: rest := by
    cases hist with
    | nil => exact absurd rfl hne
    | cons a l => exact ⟨a, l, rfl⟩
  refine ⟨?_, ?_, ?_, ?_⟩
  · intro h
    have hcond : L ≤ 0 ∨ rest = [] := by
      rcases h with h | h
      · exact Or.inl h
      · right
        have : rest.length = 0 := by simpa using h
        exact List.length_eq_zero.mp this
    simp [getDelayObs, if_pos hcond]
  · intro hL hlen hsat
    have hrest : rest ≠ [] := by
      intro h
      rw [h] at hlen
      simp at hlen
    have hcond : ¬(L ≤ 0 ∨ rest = []) := by
      push_neg
      exact ⟨hL, hrest⟩
    have htr : ratTrunc (L / ts) = ⌊L / ts⌋ :=
      ratTrunc_eq_floor _ (div_nonneg (le_of_lt hL) (le_of_lt hts))
    have hsat' : rest.length ≤ (ratTrunc (L / ts)).toNat := by
      rw [htr]
      have : rest.length + 1 ≤ (⌊L / ts⌋).toNat + 1 := by simpa using hsat
      omega
    simp only [getDelayObs, if_neg hcond, if_pos hsat']
    rw [List.getLastD_cons]
  · intro hL hlt
    have htr : ratTrunc (L / ts) = ⌊L / ts⌋ :=
      ratTrunc_eq_floor _ (div_nonneg (le_of_lt hL) (le_of_lt hts))
    have hlt' : (⌊L / ts⌋).toNat < rest.length := by
      have : (⌊L / ts⌋).toNat + 1 < rest.length + 1 := by simpa using hlt
      omega
    have hrest : rest ≠ [] := by
      intro h
      rw [h] at hlt'
      simp at hlt'
    have hcond : ¬(L ≤ 0 ∨ rest = []) := by
      push_neg
      exact ⟨hL, hrest⟩
    have hsat2 : ¬(rest.length ≤ (⌊L / ts⌋).toNat) := by omega
    simp only [getDelayObs, if_neg hcond, htr, if_neg hsat2]
  · intro k hk hklt
    cases k with
    | zero =>
      have hL0 : L ≤ 0 := by rw [hk]; simp
      simp [getDelayObs, if_pos (Or.inl hL0)]
    | succ j =>
      have hkpos : 0 < ((j + 1 : ℕ) : ℚ) := by positivity
      have hL : 0 < L := by
        rw [hk]
        exact mul_pos hkpos hts
      have hdivk : L / ts = ((j + 1 : ℕ) : ℚ) := by
        rw [hk]
        field_simp
      have hfl : ⌊L / ts⌋ = ((j + 1 : ℕ) : ℤ) := by
        rw [hdivk]
        exact_mod_cast Int.floor_natCast (j + 1)
      have htr : ratTrunc (L / ts) = ((j + 1 : ℕ) : ℤ) := by
        rw [ratTrunc_eq_floor _ (div_nonneg (le_of_lt hL) (le_of_lt hts))]
        exact hfl
      have htn : (ratTrunc (L / ts)).toNat = j + 1 := by
        rw [htr]
        exact Int.toNat_natCast (j + 1)
      have hlt' : j + 1 < rest.length := by
        have : j + 1 + 1 < rest.length + 1 := by simpa using hklt
        omega
      have hrest : rest ≠ [] := by
        intro h
        rw [h] at hlt'
        simp at hlt'
      have hcond : ¬(L ≤ 0 ∨ rest = []) := by
        push_neg
        exact ⟨hL, hrest⟩
      have hsat2 : ¬(rest.length ≤ j + 1) := by omega
      have hblend : (L - ((j + 1 : ℕ) : ℚ) * ts) / ts = 0 := by
        rw [hk]
        field_simp
      simp only [getDelayObs, if_neg hcond, htr, Int.toNat_natCast, if_neg hsat2, hblend]
      congr 1
      apply lerpObs_zero
      have h1 : ((o0 :: rest).getD (j + 1) []).length = d := by
        rw [List.getD_eq_getElem _ _ (by simp only [List.length_cons]; omega)]
        exact hdim _ (List.getElem_mem _)
      have h2 : ((o0 :: rest).getD (j + 1 + 1) []).length = d := by
        rw [List.getD_eq_getElem _ _ (by simp only [List.length_cons]; omega)]
        exact hdim _ (List.getElem_mem _)
      rw [h1, h2]

/-- Witness for delayObs_cases at the scenario of the specification: history
o0..o4 = [1],[2],[3],[4],[5] newest first, step 0.01 s, latency 0.025 s,
yielding the midpoint of entries 2 and 3. -/
theorem delayObs_cases_witness :
    getDelayObs [[1], [2], [3], [4], [5]] (1 / 100) (1 / 40) = some [7 / 2] := by
  have hf : ⌊(1 / 40 : ℚ) / (1 / 100)⌋ = 2 := by norm_num
  have h := (delayObs_cases [[1], [2], [3], [4], [5]] (1 / 100) (1 / 40) 1
    (by decide) (by norm_num) (by decide)).2.2.1 (by norm_num) (by rw [hf]; decide)
  rw [h, hf]
  have h2 : ((2 : ℤ).toNat : ℕ) = 2 := rfl
  rw [h2]
  simp only [List.getD_cons_succ, List.getD_cons_zero, lerpObs, List.zipWith]
  norm_num

/-- Index of the componentwise image of List.zipWith. -/
theorem getD_zipWith {α β γ : Type} (f : α → β → γ) :
    ∀ (l1 : List α) (l2 : List β) (i : ℕ) (d1 : α) (d2 : β) (d3 : γ),
      i < l1.length → i < l2.length →
      (List.zipWith f l1 l2).getD i d3 = f (l1.getD i d1) (l2.getD i d2)
  | _ :: _, _ :: _, 0, _, _, _, _, _ => rfl
  | a :: l1, b :: l2, i + 1, d1, d2, d3, h1, h2 => by
    rw [List.zipWith_cons_cons, List.getD_cons_succ, List.getD_cons_succ,
      List.getD_cons_succ]
    exact getD_zipWith f l1 l2 i d1 d2 d3 (by simpa using h1) (by simpa using h2)
  | [], _, i, _, _, _, h1, _ => by simp at h1
  | _ :: _, [], i, _, _, _, _, h2 => by simp at h2

/-- The Python math.fmod on rationals: remainder of x by m with the sign of x
(truncated division). Used by the angle wrapping loop in
Quadruped.GetMotorAngles (quadruped.py lines 852-859). -/
def fmodQ (x m : ℚ) : ℚ :=
  if 0 ≤ x then x - m * ⌊x / m⌋ else x + m * ⌊-x / m⌋

/-- The angle wrap of Quadruped.GetMotorAngles (quadruped.py lines 852-859),
also reached as pose3d.MapToMinusPiToPi from Minitaur.get_motor_angles:
mapped = fmod(angle, 2 pi); then subtract 2 pi if mapped is at least pi, add
2 pi if mapped is below -pi. The real constant math.pi is abstracted into the
parameter piQ. -/
def mapToMinusPiToPi (piQ x : ℚ) : ℚ :=
  if piQ ≤ fmodQ x (2 * piQ) then fmodQ x (2 * piQ) - 2 * piQ
  else if fmodQ x (2 * piQ) < -piQ then fmodQ x (2 * piQ) + 2 * piQ
  else fmodQ x (2 * piQ)

theorem fmodQ_id (x m : ℚ) (hm : 0 < m) (h1 : -m < x) (h2 : x < m) : fmodQ x m = x := by
  unfold fmodQ
  by_cases hx : 0 ≤ x
  · rw [if_pos hx]
    have hz : ⌊x / m⌋ = 0 := by
      rw [Int.floor_eq_zero_iff, Set.mem_Ico]
      exact ⟨div_nonneg hx hm.le, (div_lt_one hm).mpr h2⟩
    rw [hz]
    ring
  · rw [if_neg hx]
    have hz : ⌊-x / m⌋ = 0 := by
      rw [Int.floor_eq_zero_iff, Set.mem_Ico]
      constructor
      · apply div_nonneg _ hm.le
        linarith [not_le.mp hx]
      · rw [div_lt_one hm]
        linarith
    rw [hz]
    ring

theorem mapToMinusPiToPi_id (piQ x : ℚ) (hp : 0 < piQ) (h1 : -piQ ≤ x) (h2 : x < piQ) :
    mapToMinusPiToPi piQ x = x := by
  unfold mapToMinusPiToPi
  have hf : fmodQ x (2 * piQ) = x :=
    fmodQ_id x (2 * piQ) (by linarith) (by linarith) (by linarith)
  rw [hf, if_neg (by linarith : ¬ piQ ≤ x), if_neg (by linarith : ¬ x < -piQ)]

/-- Minitaur._add_sensor_noise (minitaur.py lines 370-375): a nonpositive
standard deviation short-circuits to the unperturbed values; otherwise the
drawn Gaussian noise vector, passed explicitly here in place of
np.random.normal, is added componentwise. -/
def addSensorNoise (sensorValues : List ℚ) (noiseStdev : ℚ) (noise : List ℚ) : List ℚ :=
  if noiseStdev ≤ 0 then sensorValues else List.zipWith (· + ·) sensorValues noise

/-- The slice of robot state consumed by the motor angle accessors: the raw
joint angles from getJointStates, the per-motor offsets and directions, the
control-latency-delayed observation vector _control_observation, the first
entry of _observation_noise_stdev, and num_motors. -/
structure RobotObsState where
  jointAngles : List ℚ
  motorOffset : List ℚ
  motorDirection : List ℚ
  controlObservation : List ℚ
  noiseStdev : ℚ
  numMotors : ℕ
deriving DecidableEq

/-- Minitaur.get_true_motor_angles (minitaur.py lines 543-553):
(joint_angle - offset) * direction, componentwise. -/
def getTrueMotorAngles (s : RobotObsState) : List ℚ :=
  List.zipWith (· * ·) (List.zipWith (· - ·) s.jointAngles s.motorOffset) s.motorDirection

/-- Minitaur.get_motor_angles (minitaur.py lines 555-567): noise added to the
first num_motors entries of the delayed control observation, then wrapped to
[-pi, pi). -/
def getMotorAngles (piQ : ℚ) (s : RobotObsState) (noise : List ℚ) : List ℚ :=
  (addSensorNoise (s.controlObservation.take s.numMotors) s.noiseStdev noise).map
    (mapToMinusPiToPi piQ)

/-- Minitaur._clip_motor_commands (minitaur.py lines 706-723): np.clip of the
commands to current_motor_angles plus or minus max_angle_change, where
current_motor_angles comes from get_motor_angles (the delayed, noise-polluted
reading). -/
def clipMotorCommands (piQ : ℚ) (s : RobotObsState) (noise : List ℚ)
    (maxAngleChange : ℚ) (motorCommands : List ℚ) : List ℚ :=
  List.zipWith (fun c a => min (max c (a - maxAngleChange)) (a + maxAngleChange))
    motorCommands (getMotorAngles piQ s noise)

/-- Stated from the words of claim C4 for comparison: the clamp centered on
the TRUE (undelayed, noise-free) motor angles instead. -/
def clipMotorCommandsClaimed (s : RobotObsState) (maxAngleChange : ℚ)
    (motorCommands : List ℚ) : List ℚ :=
  List.zipWith (fun c a => min (max c (a - maxAngleChange)) (a + maxAngleChange))
    motorCommands (getTrueMotorAngles s)

/-- A state in which the true angle is 1 while the delayed observation still
reads 0 (for instance right after a fast motion, with control latency). -/
def c4State : RobotObsState := ⟨[1], [0], [1], [0], 0, 1⟩

theorem c4_motor_angles : getMotorAngles 3 c4State [] = [0] := by
  have hm : mapToMinusPiToPi 3 0 = 0 :=
    mapToMinusPiToPi_id 3 0 (by norm_num) (by norm_num) (by norm_num)
  simp [getMotorAngles, addSensorNoise, c4State, hm]

theorem c4_true_angles : getTrueMotorAngles c4State = [1] := by
  simp [getTrueMotorAngles, c4State]

/-- Counterexample to claim C4: the command is clamped around the delayed
observed angle (here 0), not around the true angle (here 1): the clipped
command -1/2 falls outside the interval [true - step, true + step] =
[1/2, 3/2] asserted by the claim. -/
theorem clip_counterexample :
    clipMotorCommands 3 c4State [] (1 / 2) [-2] = [-(1 / 2)] ∧
    clipMotorCommandsClaimed c4State (1 / 2) [-2] = [1 / 2] ∧
    ¬((getTrueMotorAngles c4State).getD 0 0 - 1 / 2 ≤
        (clipMotorCommands 3 c4State [] (1 / 2) [-2]).getD 0 0) := by
  have hclip : clipMotorCommands 3 c4State [] (1 / 2) [-2] = [-(1 / 2)] := by
    simp only [clipMotorCommands, c4_motor_angles, List.zipWith_cons_cons,
      List.zipWith_nil_right]
    norm_num [min_def, max_def]
  refine ⟨hclip, ?_, ?_⟩
  · simp only [clipMotorCommandsClaimed, c4_true_angles, List.zipWith_cons_cons,
      List.zipWith_nil_right]
    norm_num [min_def, max_def]
  · rw [hclip, c4_true_angles]
    norm_num

/-- Claim C4 amended: after shaping, the command sent to torque conversion is
clamped componentwise to the interval [a - max_angle_step, a + max_angle_step]
where a is the DELAYED, noise-polluted observed motor angle produced by
get_motor_angles at that sub-step (not the true angle). -/
theorem clip_amended (piQ maxAngleChange : ℚ) (s : RobotObsState) (noise : List ℚ)
    (motorCommands : List ℚ) (i : ℕ) (hd : 0 ≤ maxAngleChange)
    (h1 : i < motorCommands.length) (h2 : i < (getMotorAngles piQ s noise).length) :
    (clipMotorCommands piQ s noise maxAngleChange motorCommands).getD i 0 =
      min (max (motorCommands.getD i 0)
        ((getMotorAngles piQ s noise).getD i 0 - maxAngleChange))
        ((getMotorAngles piQ s noise).getD i 0 + maxAngleChange) ∧
    (getMotorAngles piQ s noise).getD i 0 - maxAngleChange ≤
      (clipMotorCommands piQ s noise maxAngleChange motorCommands).getD i 0 ∧
    (clipMotorCommands piQ s noise maxAngleChange motorCommands).getD i 0 ≤
      (getMotorAngles piQ s noise).getD i 0 + maxAngleChange := by
  have he : (clipMotorCommands piQ s noise maxAngleChange motorCommands).getD i 0 =
      min (max (motorCommands.getD i 0)
        ((getMotorAngles piQ s noise).getD i 0 - maxAngleChange))
        ((getMotorAngles piQ s noise).getD i 0 + maxAngleChange) := by
    unfold clipMotorCommands
    exact getD_zipWith _ _ _ i 0 0 0 h1 h2
  refine ⟨he, ?_, ?_⟩
  · rw [he]
    apply le_min (le_max_right _ _)
    linarith
  · rw [he]
    exact min_le_right _ _

/-- Witness for clip_amended at the concrete state c4State. -/
theorem clip_amended_witness :
    (clipMotorCommands 3 c4State [] (1 / 2) [-2]).getD 0 0 =
      min (max (([-2] : List ℚ).getD 0 0)
        ((getMotorAngles 3 c4State []).getD 0 0 - 1 / 2))
        ((getMotorAngles 3 c4State []).getD 0 0 + 1 / 2) ∧
    (getMotorAngles 3 c4State []).getD 0 0 - 1 / 2 ≤
      (clipMotorCommands 3 c4State [] (1 / 2) [-2]).getD 0 0 ∧
    (clipMotorCommands 3 c4State [] (1 / 2) [-2]).getD 0 0 ≤
      (getMotorAngles 3 c4State []).getD 0 0 + 1 / 2 :=
  clip_amended 3 (1 / 2) c4State [] [-2] 0 (by norm_num) (by norm_num)
    (by rw [c4_motor_angles]; norm_num)

/-- Minitaur.process_action (minitaur.py lines 438-460): when interpolation is
enabled, sub-step i of R repeats blends the previous filtered action (or the
current observed motor angles when none exists) toward the commanded action
with lerp = (i + 1) / R. -/
def processAction (enableActionInterpolation : Bool) (filterAction : Option (List ℚ))
    (motorAngles : List ℚ) (actionRepeat : ℕ) (action : List ℚ)
    (substepCount : ℕ) : List ℚ :=
  if enableActionInterpolation then
    List.zipWith
      (fun p a => p + (((substepCount : ℚ) + 1) / (actionRepeat : ℚ)) * (a - p))
      (match filterAction with
       | some fa => fa
       | none => motorAngles)
      action
  else action

theorem zipWith_lerp_one : ∀ (prev action : List ℚ), action.length ≤ prev.length →
    List.zipWith (fun p a => p + 1 * (a - p)) prev action = action
  | _, [], _ => by simp
  | p :: ps, a :: as, h => by
    rw [List.zipWith_cons_cons, zipWith_lerp_one ps as (by simpa using h)]
    congr 1
    ring
  | [], _ :: _, h => by simp at h

/-- Claim C10: for every previous action, target action and action_repeat
count R of at least 1, the interpolated action at the final sub-step
(substep_count = R - 1) has lerp factor 1 and equals the target exactly. -/
theorem processAction_reaches_target (prevAction motorAngles action : List ℚ)
    (actionRepeat : ℕ) (hR : 1 ≤ actionRepeat)
    (hlen : action.length ≤ prevAction.length) :
    processAction true (some prevAction) motorAngles actionRepeat action
      (actionRepeat - 1) = action := by
  unfold processAction
  have hlerp : (((actionRepeat - 1 : ℕ) : ℚ) + 1) / (actionRepeat : ℚ) = 1 := by
    have h1 : ((actionRepeat - 1 : ℕ) : ℚ) + 1 = (actionRepeat : ℚ) := by
      have h0 : (actionRepeat - 1) + 1 = actionRepeat := Nat.succ_pred_eq_of_pos hR
      exact_mod_cast congrArg (fun n : ℕ => (n : ℚ)) h0
    rw [h1]
    exact div_self (Nat.cast_ne_zero.mpr (by omega))
  rw [if_pos rfl, hlerp]
  exact zipWith_lerp_one prevAction action hlen

/-- Witness for processAction_reaches_target with R = 4. -/
theorem processAction_reaches_target_witness :
    processAction true (some [0]) [] 4 [5] 3 = [5] :=
  processAction_reaches_target [0] [] [5] 4 (by norm_num) (by norm_num)

/-- The per-motor safety state mutated by the overheat protection:
_overheat_counter (np.zeros at reset) and _motor_enabled_list
([True] * num_motors at reset). -/
structure MotorSafetyState where
  overheatCounter : List ℕ
  motorEnabled : List Bool
deriving DecidableEq

/-- Minitaur.reset / init_robot (minitaur.py lines 256-257): the full reset
zeroes every overheat counter and re-enables every motor. -/
def resetMotorSafety (numMotors : ℕ) : MotorSafetyState :=
  ⟨List.replicate numMotors 0, List.replicate numMotors true⟩

/-- Minitaur._apply_overheat_protection (minitaur.py lines 695-704): per
motor, the counter increments when the actual torque magnitude strictly
exceeds the shutdown torque and resets to zero otherwise; the motor is then
disabled when the updated counter strictly exceeds
overheat_shutdown_time / time_step. When protection is off the state is
untouched. -/
def applyOverheatProtection (protection : Bool)
    (overheatTau overheatTime timeStep : ℚ)
    (actualTorque : List ℚ) (st : MotorSafetyState) : MotorSafetyState :=
  if protection then
    let counters := List.zipWith
      (fun t c => if overheatTau < |t| then c + 1 else 0)
      actualTorque st.overheatCounter
    ⟨counters,
      List.zipWith (fun (c : ℕ) (e : Bool) =>
        if overheatTime / timeStep < (c : ℚ) then false else e) counters st.motorEnabled⟩
  else st

/-- Minitaur.apply_action, torque sending (minitaur.py lines 744-769): the
overheat protection is applied first, the actual torques are mapped into the
motor frame by the direction signs, and each disabled motor then sends a
zero torque regardless of the motor model output. Returns the updated safety
state and the torque vector handed to setJointMotorControlArray. -/
def applyActionSafety (protection : Bool) (overheatTau overheatTime timeStep : ℚ)
    (motorDirection : List ℚ) (st : MotorSafetyState)
    (actualTorque : List ℚ) : MotorSafetyState × List ℚ :=
  let st2 := applyOverheatProtection protection overheatTau overheatTime timeStep
    actualTorque st
  (st2, List.zipWith (fun e t => if e then t else 0) st2.motorEnabled
    (List.zipWith (· * ·) actualTorque motorDirection))

/-- A sequence of apply_action steps within one episode: returns the final
safety state and the list of torque vectors sent to the simulator, in order. -/
def runApplyActions (protection : Bool) (overheatTau overheatTime timeStep : ℚ)
    (motorDirection : List ℚ) (st : MotorSafetyState) :
    List (List ℚ) → MotorSafetyState × List (List ℚ)
  | [] => (st, [])
  | tau :: taus =>
    let r := applyActionSafety protection overheatTau overheatTime timeStep
      motorDirection st tau
    let rr := runApplyActions protection overheatTau overheatTime timeStep
      motorDirection r.1 taus
    (rr.1, r.2 :: rr.2)

theorem applyOverheatProtection_lengths (protection : Bool)
    (overheatTau overheatTime timeStep : ℚ) (tau : List ℚ) (st : MotorSafetyState)
    (n : ℕ) (hc : st.overheatCounter.length = n) (he : st.motorEnabled.length = n)
    (ht : tau.length = n) :
    (applyOverheatProtection protection overheatTau overheatTime timeStep tau
      st).overheatCounter.length = n ∧
    (applyOverheatProtection protection overheatTau overheatTime timeStep tau
      st).motorEnabled.length = n := by
  unfold applyOverheatProtection
  by_cases hp : protection
  · simp [hp, List.length_zipWith, hc, he, ht]
  · simp [hp, hc, he]

theorem applyOverheatProtection_counter (overheatTau overheatTime timeStep : ℚ)
    (tau : List ℚ) (st : MotorSafetyState) (n i : ℕ) (hi : i < n)
    (hc : st.overheatCounter.length = n) (ht : tau.length = n) :
    (applyOverheatProtection true overheatTau overheatTime timeStep tau
      st).overheatCounter.getD i 0 =
      if overheatTau < |tau.getD i 0| then st.overheatCounter.getD i 0 + 1 else 0 := by
  unfold applyOverheatProtection
  rw [if_pos rfl]
  exact getD_zipWith _ tau st.overheatCounter i 0 0 0 (by omega) (by omega)

theorem applyOverheatProtection_disabled_stays (protection : Bool)
    (overheatTau overheatTime timeStep : ℚ) (tau : List ℚ) (st : MotorSafetyState)
    (n i : ℕ) (hi : i < n) (hc : st.overheatCounter.length = n)
    (he : st.motorEnabled.length = n) (ht : tau.length = n)
    (hdis : st.motorEnabled.getD i true = false) :
    (applyOverheatProtection protection overheatTau overheatTime timeStep tau
      st).motorEnabled.getD i true = false := by
  unfold applyOverheatProtection
  by_cases hp : protection
  · rw [if_pos hp]
    have hlen : (List.zipWith (fun t c => if overheatTau < |t| then c + 1 else 0)
        tau st.overheatCounter).length = n := by
      simp [List.length_zipWith, hc, ht]
    rw [getD_zipWith _ _ st.motorEnabled i 0 true true (by omega) (by omega), hdis]
    exact ite_self false
  · rw [if_neg hp]
    exact hdis

theorem applyOverheatProtection_trip (overheatTau overheatTime timeStep : ℚ)
    (tau : List ℚ) (st : MotorSafetyState) (n i : ℕ) (hi : i < n)
    (hc : st.overheatCounter.length = n) (he : st.motorEnabled.length = n)
    (ht : tau.length = n)
    (htrip : overheatTime / timeStep <
      (((applyOverheatProtection true overheatTau overheatTime timeStep tau
        st).overheatCounter.getD i 0 : ℕ) : ℚ)) :
    (applyOverheatProtection true overheatTau overheatTime timeStep tau
      st).motorEnabled.getD i true = false := by
  have hlen : (List.zipWith (fun t c => if overheatTau < |t| then c + 1 else 0)
      tau st.overheatCounter).length = n := by
    simp [List.length_zipWith, hc, ht]
  unfold applyOverheatProtection at htrip ⊢
  rw [if_pos rfl] at htrip ⊢
  rw [getD_zipWith _ _ st.motorEnabled i 0 true true (by omega) (by omega)]
  simp only at htrip
  rw [if_pos]
  exact htrip

theorem runApplyActions_streak (overheatTau overheatTime timeStep : ℚ)
    (motorDirection : List ℚ) (n i : ℕ) (hi : i < n) :
    ∀ (taus : List (List ℚ)) (st : MotorSafetyState),
      st.overheatCounter.length = n → st.motorEnabled.length = n →
      (∀ τ ∈ taus, τ.length = n) →
      (∀ τ ∈ taus, overheatTau < |τ.getD i 0|) →
      taus ≠ [] →
      overheatTime / timeStep <
        ((st.overheatCounter.getD i 0 : ℕ) : ℚ) + taus.length →
      (runApplyActions true overheatTau overheatTime timeStep motorDirection st
        taus).1.motorEnabled.getD i true = false
  | [], _, _, _, _, _, hne, _ => absurd rfl hne
  | tau :: taus, st, hc, he, hlen, hover, _, hbound => by
    have htl : tau.length = n := hlen tau (by simp)
    have hcount : (applyOverheatProtection true overheatTau overheatTime timeStep tau
        st).overheatCounter.getD i 0 = st.overheatCounter.getD i 0 + 1 := by
      rw [applyOverheatProtection_counter overheatTau overheatTime timeStep tau st n i
        hi hc htl, if_pos (hover tau (by simp))]
    obtain ⟨hc2, he2⟩ := applyOverheatProtection_lengths true overheatTau overheatTime
      timeStep tau st n hc he htl
    cases taus with
    | nil =>
      simp only [runApplyActions, applyActionSafety]
      apply applyOverheatProtection_trip overheatTau overheatTime timeStep tau st n i
        hi hc he htl
      rw [hcount]
      push_cast [List.length_cons, List.length_nil] at hbound ⊢
      linarith
    | cons tau2 taus2 =>
      simp only [runApplyActions, applyActionSafety]
      apply runApplyActions_streak overheatTau overheatTime timeStep motorDirection n i
        hi (tau2 :: taus2) _ hc2 he2
        (fun τ hτ => hlen τ (List.mem_cons_of_mem _ hτ))
        (fun τ hτ => hover τ (List.mem_cons_of_mem _ hτ)) (by simp)
      rw [hcount]
      push_cast [List.length_cons, List.length_nil] at hbound ⊢
      linarith

/-- Claim C2: the per-motor overheat counter increments on each step whose
actual torque magnitude strictly exceeds the overheat threshold and resets to
zero on any step at or below it (a strict consecutive-streak counter, not a
windowed sum); and starting from a fresh reset, a motor whose torque exceeds
the threshold for ceil(overheat_time_limit / step_duration) + 1 consecutive
steps has its enabled flag false once those steps are processed, hence is
disabled on the following step. -/
theorem overheat_streak_disables (overheatTau overheatTime timeStep : ℚ)
    (motorDirection : List ℚ) (n i : ℕ)
    (hdt : 0 < timeStep) (hT : 0 ≤ overheatTime) (hi : i < n)
    (taus : List (List ℚ)) (hlen : ∀ τ ∈ taus, τ.length = n)
    (hover : ∀ τ ∈ taus, overheatTau < |τ.getD i 0|)
    (hC : taus.length = (⌈overheatTime / timeStep⌉).toNat + 1) :
    (∀ (st : MotorSafetyState) (tau : List ℚ), st.overheatCounter.length = n →
        tau.length = n →
        (applyOverheatProtection true overheatTau overheatTime timeStep tau
          st).overheatCounter.getD i 0 =
          if overheatTau < |tau.getD i 0| then st.overheatCounter.getD i 0 + 1
          else 0) ∧
    (runApplyActions true overheatTau overheatTime timeStep motorDirection
      (resetMotorSafety n) taus).1.motorEnabled.getD i true = false := by
  constructor
  · intro st tau hc ht
    exact applyOverheatProtection_counter overheatTau overheatTime timeStep tau st n i
      hi hc ht
  · have hm0 : (0 : ℚ) ≤ overheatTime / timeStep := div_nonneg hT hdt.le
    have hcnonneg : (0 : ℤ) ≤ ⌈overheatTime / timeStep⌉ := Int.ceil_nonneg hm0
    have hzero : (resetMotorSafety n).overheatCounter.getD i 0 = 0 := by
      unfold resetMotorSafety
      rw [List.getD_eq_getElem _ _ (by simpa using hi)]
      simp
    apply runApplyActions_streak overheatTau overheatTime timeStep motorDirection n i hi
      taus (resetMotorSafety n) (by simp [resetMotorSafety]) (by simp [resetMotorSafety])
      hlen hover (by intro h; rw [h] at hC; simp at hC)
    rw [hzero, hC]
    push_cast
    have h1 : ((⌈overheatTime / timeStep⌉.toNat : ℤ) : ℚ) =
        ((⌈overheatTime / timeStep⌉ : ℤ) : ℚ) := by
      exact_mod_cast congrArg (fun z : ℤ => (z : ℚ)) (Int.toNat_of_nonneg hcnonneg)
    push_cast at h1
    rw [h1]
    have h2 : overheatTime / timeStep ≤ (⌈overheatTime / timeStep⌉ : ℚ) := Int.le_ceil _
    linarith

/-- Witness for overheat_streak_disables: threshold 2, time limit 1 s,
step 1/2 s, so ceil(2) + 1 = 3 consecutive steps at torque 3 disable the
single motor. -/
theorem overheat_streak_disables_witness :
    (∀ (st : MotorSafetyState) (tau : List ℚ), st.overheatCounter.length = 1 →
        tau.length = 1 →
        (applyOverheatProtection true 2 1 (1 / 2) tau st).overheatCounter.getD 0 0 =
          if 2 < |tau.getD 0 0| then st.overheatCounter.getD 0 0 + 1 else 0) ∧
    (runApplyActions true 2 1 (1 / 2) [1] (resetMotorSafety 1)
      [[3], [3], [3]]).1.motorEnabled.getD 0 true = false := by
  have hceil : ⌈(1 : ℚ) / (1 / 2)⌉ = 2 := by norm_num
  exact overheat_streak_disables 2 1 (1 / 2) [1] 1 0 (by norm_num) (by norm_num)
    (by norm_num) [[3], [3], [3]] (by decide)
    (by
      intro τ hτ
      fin_cases hτ <;> norm_num)
    (by rw [hceil]; rfl)

theorem applyActionSafety_disabled_zero (protection : Bool)
    (overheatTau overheatTime timeStep : ℚ) (motorDirection : List ℚ)
    (st : MotorSafetyState) (tau : List ℚ) (n i : ℕ) (hi : i < n)
    (hc : st.overheatCounter.length = n) (he : st.motorEnabled.length = n)
    (hdir : motorDirection.length = n) (ht : tau.length = n)
    (hdis : st.motorEnabled.getD i true = false) :
    (applyActionSafety protection overheatTau overheatTime timeStep motorDirection st
      tau).2.getD i 1 = 0 := by
  have hdis2 := applyOverheatProtection_disabled_stays protection overheatTau
    overheatTime timeStep tau st n i hi hc he ht hdis
  obtain ⟨hc2, he2⟩ := applyOverheatProtection_lengths protection overheatTau
    overheatTime timeStep tau st n hc he ht
  unfold applyActionSafety
  have happ : (List.zipWith (· * ·) tau motorDirection).length = n := by
    simp [List.length_zipWith, ht, hdir]
  rw [getD_zipWith _ _ _ i true 1 1 (by omega) (by omega), hdis2]
  simp

theorem runApplyActions_disabled (protection : Bool)
    (overheatTau overheatTime timeStep : ℚ) (motorDirection : List ℚ) (n i : ℕ)
    (hi : i < n) (hdir : motorDirection.length = n) :
    ∀ (taus : List (List ℚ)) (st : MotorSafetyState),
      st.overheatCounter.length = n → st.motorEnabled.length = n →
      (∀ τ ∈ taus, τ.length = n) →
      st.motorEnabled.getD i true = false →
      (runApplyActions protection overheatTau overheatTime timeStep motorDirection st
        taus).1.motorEnabled.getD i true = false ∧
      ∀ out ∈ (runApplyActions protection overheatTau overheatTime timeStep
        motorDirection st taus).2, out.getD i 1 = 0
  | [], st, _, _, _, hdis => ⟨hdis, by simp [runApplyActions]⟩
  | tau :: taus, st, hc, he, hlen, hdis => by
    have htl : tau.length = n := hlen tau (by simp)
    have hdis2 := applyOverheatProtection_disabled_stays protection overheatTau
      overheatTime timeStep tau st n i hi hc he htl hdis
    obtain ⟨hc2, he2⟩ := applyOverheatProtection_lengths protection overheatTau
      overheatTime timeStep tau st n hc he htl
    have hzero := applyActionSafety_disabled_zero protection overheatTau overheatTime
      timeStep motorDirection st tau n i hi hc he hdir htl hdis
    have ih := runApplyActions_disabled protection overheatTau overheatTime timeStep
      motorDirection n i hi hdir taus
      (applyOverheatProtection protection overheatTau overheatTime timeStep tau st)
      hc2 he2 (fun τ hτ => hlen τ (List.mem_cons_of_mem _ hτ)) hdis2
    refine ⟨ih.1, ?_⟩
    intro out hout
    simp only [runApplyActions, List.mem_cons] at hout
    rcases hout with hout | hout
    · rw [hout]
      exact hzero
    · exact ih.2 out hout

/-- Claim C3: once the enabled flag of a motor is false, it never becomes
true again across any further apply_action steps of the episode, every
subsequent torque application sends exactly zero torque for that motor
regardless of the motor model output, and the full reset re-enables all
motors. -/
theorem motor_disable_terminal (protection : Bool)
    (overheatTau overheatTime timeStep : ℚ) (motorDirection : List ℚ) (n i : ℕ)
    (hi : i < n) (hdir : motorDirection.length = n) (st : MotorSafetyState)
    (hc : st.overheatCounter.length = n) (he : st.motorEnabled.length = n)
    (taus : List (List ℚ)) (hlen : ∀ τ ∈ taus, τ.length = n)
    (hdis : st.motorEnabled.getD i true = false) :
    (runApplyActions protection overheatTau overheatTime timeStep motorDirection st
      taus).1.motorEnabled.getD i true = false ∧
    (∀ out ∈ (runApplyActions protection overheatTau overheatTime timeStep
        motorDirection st taus).2, out.getD i 1 = 0) ∧
    (resetMotorSafety n).motorEnabled.getD i false = true := by
  obtain ⟨h1, h2⟩ := runApplyActions_disabled protection overheatTau overheatTime
    timeStep motorDirection n i hi hdir taus st hc he hlen hdis
  refine ⟨h1, h2, ?_⟩
  unfold resetMotorSafety
  rw [List.getD_eq_getElem _ _ (by simpa using hi)]
  simp

/-- Witness for motor_disable_terminal: one disabled motor of two, three
further steps with nonzero torques, zero sent each time. -/
theorem motor_disable_terminal_witness :
    (runApplyActions true 2 1 (1 / 2) [1, 1] ⟨[0, 5], [true, false]⟩
      [[3, 3], [0, 4], [1, 1]]).1.motorEnabled.getD 1 true = false ∧
    (∀ out ∈ (runApplyActions true 2 1 (1 / 2) [1, 1] ⟨[0, 5], [true, false]⟩
      [[3, 3], [0, 4], [1, 1]]).2, out.getD 1 1 = 0) ∧
    (resetMotorSafety 2).motorEnabled.getD 1 false = true :=
  motor_disable_terminal true 2 1 (1 / 2) [1, 1] 2 1 (by norm_num) (by decide)
    ⟨[0, 5], [true, false]⟩ (by decide) (by decide) [[3, 3], [0, 4], [1, 1]]
    (by decide) (by decide)

theorem map_id_of_mem {α : Type} (f : α → α) :
    ∀ (l : List α), (∀ a ∈ l, f a = a) → l.map f = l
  | [], _ => rfl
  | a :: l, h => by
    rw [List.map_cons, h a (by simp),
      map_id_of_mem f l (fun b hb => h b (List.mem_cons_of_mem _ hb))]

/-- Modelled from the spec: the Butterworth action filter implementation
(envs/utilities/action_filter.py, reached as self._action_filter) is not part
of the sources here. Per the spec, ActionFilterState is the per-motor filter
tap history, and init_history fills every tap entry with the given vector. -/
structure ActionFilterState where
  taps : List (List ℚ)

/-- Modelled from the spec: ActionFilterButter.init_history fills the filter
history with the given default action, one copy per tap. -/
def initHistory (numTaps : ℕ) (defaultAction : List ℚ) : ActionFilterState :=
  ⟨List.replicate numTaps defaultAction⟩

/-- The seeding branch of Minitaur._filter (minitaur.py lines 1169-1175):
when _state_action_counter is 0 the filter history is initialized with
get_motor_angles (the delayed, noise-polluted reading); otherwise the filter
state is left as is before filtering. -/
def filterSeed (piQ : ℚ) (stateActionCounter : ℕ) (fs : ActionFilterState)
    (numTaps : ℕ) (s : RobotObsState) (noise : List ℚ) : ActionFilterState :=
  if stateActionCounter = 0 then initHistory numTaps (getMotorAngles piQ s noise)
  else fs

/-- Claim C5: at the first step of an episode the observation history holds
exactly the single entry recorded at reset, whose leading components are the
true motor angles; with the default zero noise deviation and angles inside
the wrap-identity region, get_motor_angles then returns exactly the true
motor angles, so the filter history is seeded with the current true motor
angles (never zeros) and interpolation with no previous filtered action
proceeds from the current true motor angles toward the first commanded
action. -/
theorem filter_seed_true_angles (piQ ts latency : ℚ) (s : RobotObsState)
    (noise rest : List ℚ) (fs : ActionFilterState) (numTaps : ℕ)
    (action : List ℚ) (actionRepeat substep : ℕ)
    (hpi : 0 < piQ) (hstdev : s.noiseStdev = 0)
    (hobs : getDelayObs [getTrueMotorAngles s ++ rest] ts latency =
      some s.controlObservation)
    (hN : (getTrueMotorAngles s).length = s.numMotors)
    (hrange : ∀ a ∈ getTrueMotorAngles s, -piQ ≤ a ∧ a < piQ) :
    getMotorAngles piQ s noise = getTrueMotorAngles s ∧
    filterSeed piQ 0 fs numTaps s noise = initHistory numTaps (getTrueMotorAngles s) ∧
    processAction true none (getMotorAngles piQ s noise) actionRepeat action substep =
      List.zipWith
        (fun p a => p + (((substep : ℚ) + 1) / (actionRepeat : ℚ)) * (a - p))
        (getTrueMotorAngles s) action := by
  have hctrl : s.controlObservation = getTrueMotorAngles s ++ rest := by
    have : getDelayObs [getTrueMotorAngles s ++ rest] ts latency =
        some (getTrueMotorAngles s ++ rest) := by
      simp [getDelayObs]
    rw [this] at hobs
    exact (Option.some_injective _ hobs).symm
  have hangles : getMotorAngles piQ s noise = getTrueMotorAngles s := by
    unfold getMotorAngles addSensorNoise
    rw [hctrl, List.take_left' hN, if_pos (le_of_eq hstdev)]
    exact map_id_of_mem _ _ (fun a ha =>
      mapToMinusPiToPi_id piQ a hpi (hrange a ha).1 (hrange a ha).2)
  refine ⟨hangles, ?_, ?_⟩
  · unfold filterSeed
    rw [if_pos rfl, hangles]
  · unfold processAction
    rw [if_pos rfl, hangles]

/-- Reset-time state for the witness: one motor, true angle 1/2 recorded as
the only history entry, zero noise deviation. -/
def c5State : RobotObsState := ⟨[1 / 2], [0], [1], [1 / 2], 0, 1⟩

/-- Witness for filter_seed_true_angles at the concrete reset state. -/
theorem filter_seed_true_angles_witness :
    getMotorAngles 3 c5State [] = getTrueMotorAngles c5State ∧
    filterSeed 3 0 ⟨[]⟩ 2 c5State [] = initHistory 2 (getTrueMotorAngles c5State) ∧
    processAction true none (getMotorAngles 3 c5State []) 4 [2] 0 =
      List.zipWith
        (fun p a => p + ((((0 : ℕ) : ℚ) + 1) / ((4 : ℕ) : ℚ)) * (a - p))
        (getTrueMotorAngles c5State) [2] :=
  filter_seed_true_angles 3 (1 / 100) (7 / 1000) c5State [] [] ⟨[]⟩ 2 [2] 4 0
    (by norm_num) rfl (by norm_num [getDelayObs, getTrueMotorAngles, c5State])
    (by norm_num [getTrueMotorAngles, c5State])
    (by norm_num [getTrueMotorAngles, c5State])

/-- One entry of the randomization config dict
(minitaur_env_randomizer_config): the physical target range
(random_range[0], random_range[1]) and, for a 4-tuple, the rejection range
(random_range[2], random_range[3]). -/
structure RandRange where
  lower : ℚ
  upper : ℚ
  reject : Option (ℚ × ℚ)

/-- The _randomization_param_dict of the engine, as a name-keyed list. -/
abbrev RandConfig := List (String × RandRange)

/-- The _randomization_param_value_dict: per parameter name, the stored
normalized sample (a vector; scalars are singletons). -/
abbrev SampleDict := List (String × List ℚ)

/-- Dictionary lookup in a SampleDict. -/
def lookupParam (d : SampleDict) (name : String) : List ℚ :=
  match d.find? (fun pr => pr.1 == name) with
  | some pr => pr.2
  | none => []

/-- One sampling pass: every parameter of the config draws its normalized
sample from the random source (the np_random.uniform draws of the
_randomize_* functions, passed here as the draw argument) and stores it in
the value dict. -/
def drawSampleDict (config : RandConfig) (draw : String → List ℚ) : SampleDict :=
  config.map (fun pr => (pr.1, draw pr.1))

/-- ControllableEnvRandomizerFromConfig.
_check_all_randomization_parameter_in_rejection_range (randomizer file lines
81-90): true when every parameter carrying a rejection range has its STORED
value (the normalized sample kept in _randomization_param_value_dict) inside
[reject lower, reject upper]; any component strictly outside on either side
makes it false. -/
def checkAllParamInRejectionRange (config : RandConfig) (d : SampleDict) : Bool :=
  config.all (fun pr =>
    match pr.2.reject with
    | none => true
    | some rr =>
      !((lookupParam d pr.1).any (fun x => decide (x < rr.1)) ||
        (lookupParam d pr.1).any (fun x => decide (rr.2 < x))))

/-- Whether any parameter of the config carries a rejection range
(_rejection_param_range nonempty). -/
def hasRejectionRange (config : RandConfig) : Bool :=
  config.any (fun pr => pr.2.reject.isSome)

/-- The rejection loop of randomize_env (randomizer file lines 113-118):
re-sample and re-apply the entire batch while the check holds. The source
loop is unbounded; fuel bounds the observed prefix, and none means the loop
is still running after fuel iterations. -/
def randomizeEnvLoop (config : RandConfig) (draws : ℕ → String → List ℚ) :
    ℕ → ℕ → Option SampleDict
  | 0, _ => none
  | fuel + 1, k =>
    let d := drawSampleDict config (draws k)
    if checkAllParamInRejectionRange config d then
      randomizeEnvLoop config draws fuel (k + 1)
    else some d

/-- The sampling part of randomize_env (randomizer file lines 97-118): one
batch is drawn and applied; when some parameter carries a rejection range
the rejection loop then re-samples while the check holds. The returned dict
is the finally retained batch. -/
def randomizeEnvSamples (fuel : ℕ) (config : RandConfig)
    (draws : ℕ → String → List ℚ) : Option SampleDict :=
  if hasRejectionRange config then randomizeEnvLoop config draws fuel 0
  else some (drawSampleDict config (draws 0))

/-- The normalized-to-physical transform of _randomize_latency (randomizer
file lines 337-354): (sample - lo_b) / (hi_b - lo_b) * (hi - lo) + lo. The
same affine expression appears in every _randomize_* function. -/
def randomizeLatencyValue (paramBounds : ℚ × ℚ)
    (lowerBound upperBound sample : ℚ) : ℚ :=
  (sample - paramBounds.1) / (paramBounds.2 - paramBounds.1) *
    (upperBound - lowerBound) + lowerBound

/-- _randomize_control_step (randomizer file lines 174-191): the same affine
expression followed by the int() truncation before SetTimeSteps. -/
def randomizeControlStepValue (paramBounds : ℚ × ℚ)
    (lowerBound upperBound sample : ℚ) : ℤ :=
  ratTrunc ((sample - paramBounds.1) / (paramBounds.2 - paramBounds.1) *
    (upperBound - lowerBound) + lowerBound)

/-- The per-parameter physical application used in the engine model: the
functions of _build_randomization_function_dict map each normalized
component through the shared affine expression; control step additionally
truncates with int(). (The leg-weakening variants scatter the same affine
value into a strength vector; the engine theorems below take the transform
family F as an argument and so cover them as well.) -/
def applyParamValue (paramBounds : ℚ × ℚ) (name : String)
    (lowerBound upperBound : ℚ) (sample : List ℚ) : List ℚ :=
  if name == "control step" then
    [((randomizeControlStepValue paramBounds lowerBound upperBound
      (sample.headD 0) : ℤ) : ℚ)]
  else sample.map (randomizeLatencyValue paramBounds lowerBound upperBound)

/-- set_env_from_randomization_parameters (randomizer file lines 127-135):
run every randomization function with parameters taken from the given stored
dict; returns the physical values applied per parameter. -/
def applySampleDict (F : String → ℚ → ℚ → List ℚ → List ℚ) (config : RandConfig)
    (d : SampleDict) : SampleDict :=
  config.map (fun pr => (pr.1, F pr.1 pr.2.lower pr.2.upper (lookupParam d pr.1)))

/-- randomize_env (randomizer file lines 92-122): when randomization is not
suspended, sample (and re-sample under rejection) and apply; when suspended,
nothing is drawn, and a previously stored nonempty sample dict is replayed
through the same transforms. Returns the stored sample dict together with
the applied physical values; none when nothing is applied (or when the
unbounded source loop is still running after fuel iterations). -/
def randomizeEnv (suspend : Bool) (fuel : ℕ)
    (F : String → ℚ → ℚ → List ℚ → List ℚ) (config : RandConfig)
    (draws : ℕ → String → List ℚ) (stored : SampleDict) :
    Option (SampleDict × SampleDict) :=
  if suspend then
    if stored.isEmpty then none
    else some (stored, applySampleDict F config stored)
  else
    (randomizeEnvSamples fuel config draws).map
      (fun d => (d, applySampleDict F config d))

/-- Stated from the words of claim C6 for comparison: the continuation check
evaluated on the PHYSICAL values (the transforms applied to the stored
samples) rather than on the stored normalized samples. -/
def checkAllParamInRejectionRangePhysical (F : String → ℚ → ℚ → List ℚ → List ℚ)
    (config : RandConfig) (d : SampleDict) : Bool :=
  config.all (fun pr =>
    match pr.2.reject with
    | none => true
    | some rr =>
      !((F pr.1 pr.2.lower pr.2.upper (lookupParam d pr.1)).any
          (fun x => decide (x < rr.1)) ||
        (F pr.1 pr.2.lower pr.2.upper (lookupParam d pr.1)).any
          (fun x => decide (rr.2 < x))))

theorem randomizeEnvLoop_eq_some (config : RandConfig)
    (draws : ℕ → String → List ℚ) :
    ∀ (fuel k : ℕ) (d : SampleDict),
      randomizeEnvLoop config draws fuel k = some d →
      ∃ j, k ≤ j ∧ j < k + fuel ∧ d = drawSampleDict config (draws j) ∧
        checkAllParamInRejectionRange config d = false ∧
        ∀ l, k ≤ l → l < j →
          checkAllParamInRejectionRange config (drawSampleDict config (draws l)) = true
  | 0, k, d, h => by simp [randomizeEnvLoop] at h
  | fuel + 1, k, d, h => by
    simp only [randomizeEnvLoop] at h
    cases hcheck : checkAllParamInRejectionRange config (drawSampleDict config (draws k)) with
    | true =>
      rw [hcheck, if_pos rfl] at h
      obtain ⟨j, hj1, hj2, hj3, hj4, hj5⟩ :=
        randomizeEnvLoop_eq_some config draws fuel (k + 1) d h
      refine ⟨j, by omega, by omega, hj3, hj4, ?_⟩
      intro l hl1 hl2
      rcases Nat.eq_or_lt_of_le hl1 with rfl | hlt
      · exact hcheck
      · exact hj5 l (by omega) hl2
    | false =>
      rw [hcheck] at h
      simp only [Bool.false_eq_true, if_false, Option.some_inj] at h
      refine ⟨k, le_refl k, by omega, h.symm, h ▸ hcheck, ?_⟩
      intro l hl1 hl2
      omega

theorem randomizeEnvLoop_eq_none (config : RandConfig)
    (draws : ℕ → String → List ℚ) :
    ∀ (fuel k : ℕ),
      (∀ j, k ≤ j → j < k + fuel →
        checkAllParamInRejectionRange config (drawSampleDict config (draws j)) = true) →
      randomizeEnvLoop config draws fuel k = none
  | 0, _, _ => rfl
  | fuel + 1, k, h => by
    simp only [randomizeEnvLoop]
    rw [h k (le_refl k) (by omega), if_pos rfl]
    exact randomizeEnvLoop_eq_none config draws fuel (k + 1)
      (fun j hj1 hj2 => h j (by omega) (by omega))

/-- Claim C6 amended: with at least one rejecting parameter, the engine
samples and applies the batch, then re-samples and re-applies the entire
batch in a loop that continues exactly while every rejecting parameter's
STORED NORMALIZED sample (the drawn value kept in the randomization value
dict, not the physical value) lies inside its rejection range componentwise,
with no iteration cap: the retained batch is the first one failing the
check, and a random stream passing the check for any number fuel of batches
keeps the loop running past that bound. -/
theorem rejection_loop_amended (config : RandConfig)
    (draws : ℕ → String → List ℚ) (fuel : ℕ)
    (hrej : hasRejectionRange config = true) :
    (∀ d, randomizeEnvSamples fuel config draws = some d →
      ∃ j, j < fuel ∧ d = drawSampleDict config (draws j) ∧
        checkAllParamInRejectionRange config d = false ∧
        ∀ l, l < j →
          checkAllParamInRejectionRange config (drawSampleDict config (draws l))
            = true) ∧
    ((∀ j, j < fuel →
        checkAllParamInRejectionRange config (drawSampleDict config (draws j))
          = true) →
      randomizeEnvSamples fuel config draws = none) := by
  constructor
  · intro d h
    unfold randomizeEnvSamples at h
    rw [if_pos hrej] at h
    obtain ⟨j, hj1, hj2, hj3, hj4, hj5⟩ :=
      randomizeEnvLoop_eq_some config draws fuel 0 d h
    exact ⟨j, by omega, hj3, hj4, fun l hl => hj5 l (by omega) hl⟩
  · intro h
    unfold randomizeEnvSamples
    rw [if_pos hrej]
    exact randomizeEnvLoop_eq_none config draws fuel 0
      (fun j hj1 hj2 => h j (by omega))

/-- One-parameter latency config with target range [0, 1/25] and rejection
range [1/100, 3/100]. -/
def c6Config : RandConfig := [("latency", ⟨0, 1 / 25, some (1 / 100, 3 / 100)⟩)]

/-- A random stream whose every draw is the normalized sample 1/2. -/
def c6Draws : ℕ → String → List ℚ := fun _ _ => [1 / 2]

/-- The stored value dict after drawing 1/2 for the latency parameter. -/
def c6Dict : SampleDict := [("latency", [1 / 2])]

/-- Counterexample to claim C6: with normalized sample 1/2 the physical
latency is exactly 3/100, inside the forbidden range [1/100, 3/100], yet the
engine stops the loop at once because the check compares the stored
NORMALIZED sample 1/2 (not the physical value) against the range. -/
theorem rejection_loop_counterexample :
    randomizeEnvSamples 1 c6Config c6Draws = some c6Dict ∧
    checkAllParamInRejectionRange c6Config c6Dict = false ∧
    checkAllParamInRejectionRangePhysical (applyParamValue (-1, 1)) c6Config c6Dict
      = true := by
  have hcheck : checkAllParamInRejectionRange c6Config c6Dict = false := by
    simp only [checkAllParamInRejectionRange, c6Config, c6Dict, lookupParam]
    norm_num
  refine ⟨?_, hcheck, ?_⟩
  · have hdraw : drawSampleDict c6Config (c6Draws 0) = c6Dict := rfl
    have hrej : hasRejectionRange c6Config = true := rfl
    unfold randomizeEnvSamples
    rw [if_pos hrej]
    simp only [randomizeEnvLoop, hdraw, hcheck, Bool.false_eq_true, if_false]
  · have hne2 : ("latency" : String) ≠ "control step" := by decide
    simp only [checkAllParamInRejectionRangePhysical, applyParamValue, c6Config,
      c6Dict, lookupParam, beq_iff_eq, if_neg hne2]
    unfold randomizeLatencyValue
    norm_num
    simp only [if_neg hne2]
    norm_num

/-- Witness for rejection_loop_amended at the concrete latency config. -/
theorem rejection_loop_amended_witness :
    (∀ d, randomizeEnvSamples 1 c6Config c6Draws = some d →
      ∃ j, j < 1 ∧ d = drawSampleDict c6Config (c6Draws j) ∧
        checkAllParamInRejectionRange c6Config d = false ∧
        ∀ l, l < j →
          checkAllParamInRejectionRange c6Config (drawSampleDict c6Config (c6Draws l))
            = true) ∧
    ((∀ j, j < 1 →
        checkAllParamInRejectionRange c6Config (drawSampleDict c6Config (c6Draws j))
          = true) →
      randomizeEnvSamples 1 c6Config c6Draws = none) :=
  rejection_loop_amended c6Config c6Draws 1 rfl

theorem randomizeEnvSamples_length (fuel : ℕ) (config : RandConfig)
    (draws : ℕ → String → List ℚ) (d : SampleDict)
    (h : randomizeEnvSamples fuel config draws = some d) :
    d.length = config.length := by
  unfold randomizeEnvSamples at h
  by_cases hrej : hasRejectionRange config = true
  · rw [if_pos hrej] at h
    obtain ⟨j, _, _, hj3, _, _⟩ := randomizeEnvLoop_eq_some config draws fuel 0 d h
    rw [hj3]
    simp [drawSampleDict]
  · rw [if_neg hrej] at h
    have h2 := Option.some.inj h
    rw [← h2]
    simp [drawSampleDict]

/-- Claim C7: when randomization is suspended, randomize_env draws no new
samples (the result is independent of the random stream and the fuel);
if a previously stored nonempty sample dict exists, it is replayed through
the same per-parameter transforms and reproduces the identical physical
values as the original non-suspended application of that sample; if no
stored sample exists, nothing is applied. -/
theorem suspend_replay (fuel fuel2 : ℕ) (F : String → ℚ → ℚ → List ℚ → List ℚ)
    (config : RandConfig) (draws draws2 : ℕ → String → List ℚ)
    (stored d applied : SampleDict) (hcfg : config ≠ []) :
    (randomizeEnv true fuel F config draws stored =
      randomizeEnv true fuel2 F config draws2 stored) ∧
    (randomizeEnv false fuel F config draws [] = some (d, applied) →
      randomizeEnv true fuel2 F config draws2 d = some (d, applied)) ∧
    (randomizeEnv true fuel F config draws [] = none) := by
  refine ⟨rfl, ?_, rfl⟩
  intro h
  have hsome : (randomizeEnvSamples fuel config draws).map
      (fun d0 => (d0, applySampleDict F config d0)) = some (d, applied) := by
    simpa [randomizeEnv] using h
  obtain ⟨d0, hd0, heq⟩ := Option.map_eq_some'.mp hsome
  obtain ⟨hd, happ⟩ : d0 = d ∧ applySampleDict F config d0 = applied := by
    constructor
    · exact congrArg Prod.fst heq
    · exact congrArg Prod.snd heq
  subst hd
  have hlen := randomizeEnvSamples_length fuel config draws d0 hd0
  have hne : d0 ≠ [] := by
    intro h0
    rw [h0] at hlen
    exact hcfg (List.length_eq_zero.mp hlen.symm)
  have hemp : d0.isEmpty = false := by
    cases d0 with
    | nil => exact absurd rfl hne
    | cons a l => rfl
  simp [randomizeEnv, hemp, happ]

/-- One-parameter latency config with no rejection range, for the replay
witness. -/
def c7Config : RandConfig := [("latency", ⟨0, 1, none⟩)]

/-- A random stream whose every draw is the normalized sample 1. -/
def c7Draws : ℕ → String → List ℚ := fun _ _ => [1]

/-- Witness for suspend_replay: a non-suspended run stores the sample 1 with
physical latency 1; the suspended replay reproduces exactly the same applied
values and ignores the stream. -/
theorem suspend_replay_witness :
    randomizeEnv true 3 (applyParamValue (-1, 1)) c7Config c7Draws
      [("latency", [1])] = some ([("latency", [1])], [("latency", [1])]) := by
  have hne2 : ("latency" : String) ≠ "control step" := by decide
  have hval : randomizeLatencyValue ((-1 : ℚ), 1) 0 1 1 = 1 := by
    unfold randomizeLatencyValue
    norm_num
  have hlook : lookupParam [("latency", [1])] "latency" = [1] := rfl
  have happly : applySampleDict (applyParamValue (-1, 1)) c7Config
      [("latency", [1])] = [("latency", [1])] := by
    simp only [applySampleDict, c7Config, List.map_cons, List.map_nil, hlook,
      applyParamValue, beq_iff_eq, if_neg hne2]
    simp [hval]
  have horig : randomizeEnv false 2 (applyParamValue (-1, 1)) c7Config c7Draws [] =
      some ([("latency", [1])], [("latency", [1])]) := by
    have hrej : hasRejectionRange c7Config = false := rfl
    have hdraw : drawSampleDict c7Config (c7Draws 0) = [("latency", [1])] := rfl
    simp [randomizeEnv, randomizeEnvSamples, hrej, hdraw, happly]
  exact (suspend_replay 2 3 (applyParamValue (-1, 1)) c7Config c7Draws c7Draws
    [] [("latency", [1])] [("latency", [1])] (by simp [c7Config])).2.1 horig

/-- Claim C8: the shared normalized-to-physical affine transform (as written
in _randomize_latency, and in _randomize_control_step before the int
truncation) maps the lower normalized bound to exactly the lower target
bound and the upper normalized bound to exactly the upper target bound. -/
theorem transform_endpoints (paramBounds : ℚ × ℚ) (lowerBound upperBound : ℚ)
    (hpb : paramBounds.1 ≠ paramBounds.2) :
    randomizeLatencyValue paramBounds lowerBound upperBound paramBounds.1 =
      lowerBound ∧
    randomizeLatencyValue paramBounds lowerBound upperBound paramBounds.2 =
      upperBound := by
  unfold randomizeLatencyValue
  constructor
  · simp
  · have h : paramBounds.2 - paramBounds.1 ≠ 0 := sub_ne_zero.mpr (Ne.symm hpb)
    field_simp

/-- Witness for transform_endpoints with bounds [-1, 1] and target [2, 7]. -/
theorem transform_endpoints_witness :
    randomizeLatencyValue (-1, 1) 2 7 (-1) = 2 ∧
    randomizeLatencyValue (-1, 1) 2 7 1 = 7 :=
  transform_endpoints (-1, 1) 2 7 (by norm_num)

/-- The configuration errors raised by the mass and inertia setters: a length
mismatch carries both lengths (as formatted into the ValueError message of
set_base_mass / set_base_inertia), and a negative inertia value raises the
non-negativity ValueError. -/
inductive ConfigError where
  | lengthMismatch (got expected : ℕ)
  | negativeInertia
deriving DecidableEq

/-- Minitaur.set_base_mass (minitaur.py lines 935-952): raise the length
mismatch error before any changeDynamics call; otherwise perform one
changeDynamics(mass) per chassis link. The first component lists the
committed (link id, mass) changeDynamics calls in order. -/
def setBaseMass (chassisLinkIds : List ℤ) (baseMass : List ℚ) :
    List (ℤ × ℚ) × Option ConfigError :=
  if baseMass.length ≠ chassisLinkIds.length then
    ([], some (ConfigError.lengthMismatch baseMass.length chassisLinkIds.length))
  else (chassisLinkIds.zip baseMass, none)

/-- The per-link loop of Minitaur.set_base_inertia (minitaur.py lines
997-1004): for each (chassis id, inertia) pair in order, raise the negative
value error as soon as some component of the current inertia is negative,
leaving the changeDynamics calls of the earlier links committed; otherwise
commit changeDynamics(localInertiaDiagonal) for this link and continue. -/
def setBaseInertiaLoop : List (ℤ × List ℚ) → List (ℤ × List ℚ) × Option ConfigError
  | [] => ([], none)
  | (cid, inertia) :: rest =>
    if inertia.any (fun v => decide (v < 0)) then
      ([], some ConfigError.negativeInertia)
    else
      let r := setBaseInertiaLoop rest
      ((cid, inertia) :: r.1, r.2)

/-- Minitaur.set_base_inertia (minitaur.py lines 979-1004): raise the length
mismatch error before any changeDynamics call, then run the per-link loop. -/
def setBaseInertia (chassisLinkIds : List ℤ) (baseInertias : List (List ℚ)) :
    List (ℤ × List ℚ) × Option ConfigError :=
  if baseInertias.length ≠ chassisLinkIds.length then
    ([], some (ConfigError.lengthMismatch baseInertias.length chassisLinkIds.length))
  else setBaseInertiaLoop (chassisLinkIds.zip baseInertias)

/-- Counterexample to claim C9: a negative inertia in the SECOND link raises
the negative value error, yet the first link's changeDynamics call has
already been committed, so the raising call does commit partial state. -/
theorem setter_partial_commit_counterexample :
    (setBaseInertia [-1, 0] [[1, 1, 1], [-1, 1, 1]]).2 =
      some ConfigError.negativeInertia ∧
    (setBaseInertia [-1, 0] [[1, 1, 1], [-1, 1, 1]]).1 = [(-1, [1, 1, 1])] ∧
    (setBaseInertia [-1, 0] [[1, 1, 1], [-1, 1, 1]]).1 ≠ [] := by
  have hneg1 : ¬((1 : ℚ) < 0) := by norm_num
  have hneg2 : (-1 : ℚ) < 0 := by norm_num
  have h : setBaseInertia [-1, 0] [[1, 1, 1], [-1, 1, 1]] =
      ([(-1, [1, 1, 1])], some ConfigError.negativeInertia) := by
    unfold setBaseInertia
    rw [if_neg (by norm_num)]
    show setBaseInertiaLoop [(-1, [1, 1, 1]), (0, [-1, 1, 1])] = _
    simp [setBaseInertiaLoop, hneg1, hneg2]
  rw [h]
  exact ⟨rfl, rfl, by simp⟩

theorem setBaseInertiaLoop_eq (pairs : List (ℤ × List ℚ)) :
    setBaseInertiaLoop pairs =
      (pairs.takeWhile (fun pr => !pr.2.any (fun v => decide (v < 0))),
       if pairs.all (fun pr => !pr.2.any (fun v => decide (v < 0))) then none
       else some ConfigError.negativeInertia) := by
  induction pairs with
  | nil => rfl
  | cons pr rest ih =>
    obtain ⟨cid, inertia⟩ := pr
    by_cases hneg : inertia.any (fun v => decide (v < 0)) = true
    · simp [setBaseInertiaLoop, hneg, List.takeWhile_cons, List.all_cons]
    · have hneg2 : inertia.any (fun v => decide (v < 0)) = false :=
        Bool.of_not_eq_true hneg
      have hsplit : setBaseInertiaLoop ((cid, inertia) :: rest) =
          ((cid, inertia) :: (setBaseInertiaLoop rest).1,
            (setBaseInertiaLoop rest).2) := by
        simp [setBaseInertiaLoop, hneg2]
      rw [hsplit, ih, List.takeWhile_cons_of_pos (by simp [hneg2]), List.all_cons]
      rw [hneg2]
      cases hall : rest.all (fun pr => !pr.2.any (fun v => decide (v < 0))) with
      | true => simp
      | false => simp

/-- Claim C9 amended: length errors of both setters are raised before any
changeDynamics call (no partial state) and report both lengths — stated for
set_base_mass with the mismatched baseMass array and for set_base_inertia
with the mismatched badInertias array; when the lengths match, the inertia
setter raises the negative value error at the first link whose inertia has a
negative component, with the changeDynamics calls of all PRECEDING links
already committed (the committed prefix is the maximal prefix of links with
no negative inertia component). -/
theorem setters_amended (chassisLinkIds : List ℤ) (baseMass : List ℚ)
    (baseInertias badInertias : List (List ℚ))
    (hm : baseMass.length ≠ chassisLinkIds.length)
    (hbi : badInertias.length ≠ chassisLinkIds.length)
    (hi : baseInertias.length = chassisLinkIds.length) :
    setBaseMass chassisLinkIds baseMass =
      ([], some (ConfigError.lengthMismatch baseMass.length
        chassisLinkIds.length)) ∧
    setBaseInertia chassisLinkIds badInertias =
      ([], some (ConfigError.lengthMismatch badInertias.length
        chassisLinkIds.length)) ∧
    (setBaseInertia chassisLinkIds baseInertias).1 =
      (chassisLinkIds.zip baseInertias).takeWhile
        (fun pr => !pr.2.any (fun v => decide (v < 0))) ∧
    (setBaseInertia chassisLinkIds baseInertias).2 =
      (if (chassisLinkIds.zip baseInertias).all
          (fun pr => !pr.2.any (fun v => decide (v < 0))) then none
       else some ConfigError.negativeInertia) := by
  refine ⟨?_, ?_, ?_, ?_⟩
  · unfold setBaseMass
    rw [if_pos hm]
  · unfold setBaseInertia
    rw [if_pos hbi]
  · unfold setBaseInertia
    rw [if_neg (by omega), setBaseInertiaLoop_eq]
  · unfold setBaseInertia
    rw [if_neg (by omega), setBaseInertiaLoop_eq]

/-- Witness for setters_amended: a mass array one element shorter than the
two chassis links, an inertia array one element shorter as well, and a
matched-length inertia array whose second entry is negative. -/
theorem setters_amended_witness :
    setBaseMass [-1, 0] [5] =
      ([], some (ConfigError.lengthMismatch ([5] : List ℚ).length
        ([-1, 0] : List ℤ).length)) ∧
    setBaseInertia [-1, 0] [[1, 1, 1]] =
      ([], some (ConfigError.lengthMismatch ([[1, 1, 1]] : List (List ℚ)).length
        ([-1, 0] : List ℤ).length)) ∧
    (setBaseInertia [-1, 0] [[1, 1, 1], [-1, 1, 1]]).1 =
      (([-1, 0] : List ℤ).zip [[1, 1, 1], [-1, 1, 1]]).takeWhile
        (fun pr => !pr.2.any (fun v => decide (v < 0))) ∧
    (setBaseInertia [-1, 0] [[1, 1, 1], [-1, 1, 1]]).2 =
      (if (([-1, 0] : List ℤ).zip [[1, 1, 1], [-1, 1, 1]]).all
          (fun pr => !pr.2.any (fun v => decide (v < 0))) then none
       else some ConfigError.negativeInertia) :=
  setters_amended [-1, 0] [5] [[1, 1, 1], [-1, 1, 1]] [[1, 1, 1]] (by norm_num)
    (by norm_num) (by norm_num)
